import Mathlib

/-!
Verification of the gossip / peer-sampling library against its specification.

The Rust sources are embedded shallowly:
  * `src/src/peer.rs`      → `Peer`, `peer_as_bytes`, `peer_from_bytes`
  * `src/src/sampling.rs`  → `View` and its operations (`select`, `remove_duplicates`,
                             `remove_old_items`, `remove_head`, `remove_at_random`,
                             `update_queue`, `head`, `move_oldest_to_end`, `build_buffer`)
  * `src/src/config.rs`    → `UpdateExpirationMode`, `UpdateExpirationValue`
  * `src/src/update.rs`    → `Store` (the update store) and `clear_expired`
  * `src/src/gossip.rs`    → `submit`, `header_handler`, `receive_content_pair` /
                             `receive_content_response`, `gossip_push_cycle`,
                             `gossip_sleep_time` / `sampling_sleep_time`

Modelling conventions:
  * Rust machine integers (`u16`, `u64`, `usize`) are modelled as `Nat`; where the
    source can overflow or panic the model is explicit about it (`Option`, `% 256`, …).
  * `rand::thread_rng().gen_range(0, n)` is modelled by an externally supplied draw
    `r : Nat` reduced mod `n`; `gen_range(0, 0)` panics in rand, modelled as `none`.
  * `HashMap` / `HashSet` iteration order is unspecified in Rust; maps are modelled as
    association lists and all theorems proved about them are order-independent.
  * The BLAKE3 content digest is an external crate; it is passed in as a function
    parameter `hash : List Nat → String`.
-/

/-- Rust `Peer { address: String, age: u16 }` (src/src/peer.rs).  The `u16` age is a
`Nat`; every operation in scope keeps it below `2^16`. -/
structure Peer where
  address : String
  age : Nat
deriving DecidableEq, Repr

/-- Rust `PartialEq for Peer` compares addresses only; `addr_mem a l` is
`l.contains(peer with address a)` under that equality. -/
def addr_mem (a : String) (l : List Peer) : Bool :=
  l.any (fun p => p.address == a)

/-- Vec/HashSet membership of a peer under the source's address-only equality. -/
def peer_mem (p : Peer) (l : List Peer) : Bool :=
  addr_mem p.address l

/-- Comparison key of `sort_by_key(|peer| peer.age())`. -/
def age_le (p q : Peer) : Prop := p.age ≤ q.age

instance : DecidableRel age_le := fun p q => inferInstanceAs (Decidable (p.age ≤ q.age))

instance : IsTotal Peer age_le := ⟨fun a b => Nat.le_total a.age b.age⟩

instance : IsTrans Peer age_le := ⟨fun _ _ _ h1 h2 => Nat.le_trans h1 h2⟩

/-- Rust `Vec::sort_by_key(|peer| peer.age())`: a stable ascending sort by age;
insertion sort is stable, matching the source's stable sort. -/
def sort_by_age (l : List Peer) : List Peer := List.insertionSort age_le l

/-- One step of `View::remove_duplicates` (src/src/sampling.rs:343-359): the running
`HashSet` keyed on address keeps, for each address, the entry seen so far with the
smallest age (`replace` happens only on `peer.age() < entry.age()`).  The accumulator
is the set's contents; its order is irrelevant to every theorem below. -/
def dedup_insert (acc : List Peer) (p : Peer) : List Peer :=
  if addr_mem p.address acc then
    acc.map (fun q => if q.address == p.address && p.age < q.age then p else q)
  else
    acc ++ [p]

/-- Rust `View::remove_duplicates` (src/src/sampling.rs:343-359). -/
def remove_duplicates (l : List Peer) : List Peer :=
  l.foldl dedup_insert []

/-- Rust `View::remove_old_items` (src/src/sampling.rs:367-382): keep the
`len - min(h, max(0, len - c))` entries of smallest age (stable), preserving the
original order; membership tests (`kept_peers.contains`) use address equality. -/
def remove_old_items (c h : Nat) (l : List Peer) : List Peer :=
  let over := if l.length > c then l.length - c else 0
  let removal_count := Nat.min h over
  if removal_count > 0 then
    let kept := (sort_by_age l).take (l.length - removal_count)
    l.filter (fun p => peer_mem p kept)
  else l

/-- Rust `View::remove_head` (src/src/sampling.rs:390-394): `drain(0..min(s, over))`. -/
def remove_head (c s : Nat) (l : List Peer) : List Peer :=
  let over := if l.length > c then l.length - c else 0
  l.drop (Nat.min s over)

/-- Loop body of `View::remove_at_random` (src/src/sampling.rs:401-408): `k` times,
remove the element at index `gen_range(0, len)`; the draw at step `i` is `rs i`,
reduced mod the current length exactly as a uniform draw lies in `[0, len)`. -/
def remove_at_random_aux (rs : Nat → Nat) : Nat → List Peer → List Peer
  | 0, l => l
  | k + 1, l => remove_at_random_aux rs k (l.eraseIdx (rs k % l.length))

/-- Rust `View::remove_at_random` (src/src/sampling.rs:401-408). -/
def remove_at_random (rs : Nat → Nat) (c : Nat) (l : List Peer) : List Peer :=
  if l.length > c then remove_at_random_aux rs (l.length - c) l else l

/-- The view of a node (src/src/sampling.rs:232-239); `queue` is the `VecDeque`
front-at-head. -/
structure View where
  host_address : String
  peers : List Peer
  queue : List Peer
deriving DecidableEq, Repr

/-- Rust `View::update_queue` (src/src/sampling.rs:412-433): drop queued peers no
longer in `peers` (by descending index, i.e. an order-preserving filter), then append
all peers of `peers` that were not in the original queue. -/
def update_queue (v : View) : View :=
  let kept := v.queue.filter (fun p => peer_mem p v.peers)
  let added := v.peers.filter (fun p => !peer_mem p v.queue)
  { v with queue := kept ++ added }

/-- Rust `View::select` (src/src/sampling.rs:327-340), the merge of a received buffer:
append the buffer minus the host address, then remove duplicates, old items, head,
random surplus, and refresh the application queue. -/
def View.select (rs : Nat → Nat) (c h s : Nat) (buffer : List Peer) (v : View) : View :=
  let p1 := v.peers ++ buffer.filter (fun p => p.address != v.host_address)
  let p2 := remove_duplicates p1
  let p3 := remove_old_items c h p2
  let p4 := remove_head c s p3
  let p5 := remove_at_random rs c p4
  update_queue { v with peers := p5 }

/-- Checked `usize` subtraction: `none` models the "attempt to subtract with
overflow" panic of debug builds (release builds wrap instead). -/
def checked_sub (a b : Nat) : Option Nat :=
  if b ≤ a then some (a - b) else none

/-- Rust `View::head` (src/src/sampling.rs:303-310): the first
`min(c / 2 - 1, len)` peers.  The subtraction `c / 2 - 1` is performed on `usize`
and underflows when `c < 2`. -/
def View.head (c : Nat) (peers : List Peer) : Option (List Peer) :=
  (checked_sub (c / 2) 1).map (fun m => peers.take (Nat.min m peers.length))

/-- Rust `View::move_oldest_to_end` (src/src/sampling.rs:276-296): when the view is
larger than `h`, move the `h` peers of largest age (stable sort, reversed, truncated)
to the end, keeping the relative order of both groups. -/
def move_oldest_to_end (h : Nat) (l : List Peer) : List Peer :=
  if l.length > h then
    let h_oldest := ((sort_by_age l).reverse).take h
    l.filter (fun p => !peer_mem p h_oldest) ++ l.filter (fun p => peer_mem p h_oldest)
  else l

/-- Rust `PeerSamplingService::build_buffer` (src/src/sampling.rs:120-126): the
buffer is `[self (age 0)]` followed by `head(view_size)` of the view after
`permute` and `move_oldest_to_end`.  The random `permute` outcome is the `shuffled`
argument; `none` propagates the `head` underflow panic. -/
def build_buffer (address : String) (c h : Nat) (shuffled : List Peer) : Option (List Peer) :=
  (View.head c (move_oldest_to_end h shuffled)).map (fun hd => Peer.mk address 0 :: hd)

/-- Rust `UpdateExpirationMode` (src/src/config.rs:169-178).  `MostRecent(size,
margin)` carries `margin : f64` only through `size + (size as f64 * margin) as usize`;
that truncated product is the `Nat` field `marginFloor` here (`floor(size * margin)`
for the non-negative margins in scope). -/
inductive UpdateExpirationMode where
  | noExpiration : UpdateExpirationMode
  | durationMillis (ms : Nat) : UpdateExpirationMode
  | pushCount (n : Nat) : UpdateExpirationMode
  | mostRecent (size marginFloor : Nat) : UpdateExpirationMode
deriving DecidableEq, Repr

/-- Rust `UpdateExpirationValue` (src/src/config.rs:180-185); `std::time::Instant`
timestamps are abstract `Nat` instants. -/
inductive UpdateExpirationValue where
  | noExpiration : UpdateExpirationValue
  | durationMillis (created ttl : Nat) : UpdateExpirationValue
  | pushCount (n : Nat) : UpdateExpirationValue
  | mostRecent (created : Nat) : UpdateExpirationValue
deriving DecidableEq, Repr

/-- Rust `UpdateExpirationValue::new` (src/src/config.rs:187-194); `now` is the
current instant substituted for `Instant::now()`. -/
def UpdateExpirationValue.new (mode : UpdateExpirationMode) (now : Nat) : UpdateExpirationValue :=
  match mode with
  | .noExpiration => .noExpiration
  | .pushCount n => .pushCount n
  | .durationMillis ms => .durationMillis now ms
  | .mostRecent _ _ => .mostRecent now

/-- Rust `UpdateExpirationValue::increase_push_count` (src/src/config.rs:196-206),
called `increase_age` at its gossip call site: decrement a `PushCount` saturating
at zero, leave the other variants alone. -/
def UpdateExpirationValue.increase_push_count : UpdateExpirationValue → UpdateExpirationValue
  | .pushCount n => .pushCount (n - 1)
  | v => v

/-- Rust `UpdateExpirationValue::has_expired` (src/src/config.rs:208-215);
`start.elapsed()` is `now - created` (saturating at zero, as `Instant::elapsed`). -/
def UpdateExpirationValue.has_expired (now : Nat) : UpdateExpirationValue → Bool
  | .noExpiration => false
  | .pushCount n => n == 0
  | .durationMillis created ttl => ttl ≤ now - created
  | .mostRecent _ => false

/-- One entry of the active map `HashMap<String, (Update, UpdateExpirationValue)>`:
the key (content digest), the update's content bytes, and its expiration state. -/
structure ActiveEntry where
  digest : String
  content : List Nat
  exp : UpdateExpirationValue
deriving DecidableEq, Repr

/-- The update store of a node (src/src/gossip.rs:30-32 / src/src/update.rs:51-62):
`active` is the association-list view of the active `HashMap`, `removed` the ordered
tombstone list of expired digests. -/
structure Store where
  active : List ActiveEntry
  removed : List String
deriving DecidableEq, Repr

/-- HashMap `contains_key` on the modelled active map. -/
def active_has (st : Store) (d : String) : Bool :=
  st.active.any (fun e => e.digest == d)

/-- Vec `contains` on the tombstone list. -/
def removed_has (st : Store) (d : String) : Bool :=
  st.removed.contains d

/-- The two `submit` failures (src/src/gossip.rs:309,312), as the spec's typed
errors. -/
inductive SubmitError where
  | alreadyActive : SubmitError
  | alreadyExpired : SubmitError
deriving DecidableEq, Repr

/-- Rust `GossipService::submit` (src/src/gossip.rs:304-319): hash the bytes, fail if
the digest is active or removed, otherwise insert with a fresh expiration state.  The
first component is the store after the call (unchanged on failure); the third is the
trace of application-callback invocations made during the call — the source never
touches `update_handler` in `submit`, so that trace is empty on every path. -/
def submit (hash : List Nat → String) (mode : UpdateExpirationMode) (now : Nat)
    (st : Store) (bytes : List Nat) : Store × Option SubmitError × List String :=
  let d := hash bytes
  if active_has st d then
    (st, some .alreadyActive, [])
  else if removed_has st d then
    (st, some .alreadyExpired, [])
  else
    ({ st with active := st.active ++ [⟨d, bytes, .new mode now⟩] }, none, [])

/-- Message direction tag (src/src/message.rs:17-20). -/
inductive MessageType where
  | request : MessageType
  | response : MessageType
deriving DecidableEq, Repr

/-- A header message (spec §6): sender address, direction, advertised digests. -/
structure HeaderMessage where
  sender : String
  mtype : MessageType
  headers : List String
deriving DecidableEq, Repr

/-- Loop body of `GossipService::start_message_header_handler`
(src/src/gossip.rs:105-145).  `parse_ok` models `str::parse::<SocketAddr>` (an
external std function).  Output: the optional header `Response` (self address and all
active digests) and the optional `ContentMessage` request (the wanted digests, one
per distinct new digest as collected into a `HashMap`).  The source replies whenever
`pull` is set, at least one update is active and the message is a `Request` — there
is no comparison of the sender against the node's own address. -/
def header_handler (parse_ok : String → Bool) (pull : Bool) (address : String)
    (st : Store) (msg : HeaderMessage) :
    Option (String × List String) × Option (String × List String) :=
  if parse_ok msg.sender then
    let resp :=
      if pull && decide (0 < st.active.length) && (msg.mtype == .request) then
        some (address, st.active.map (fun e => e.digest))
      else none
    let wanted :=
      (msg.headers.filter (fun d => !active_has st d && !removed_has st d)).eraseDups
    let creq := if 0 < wanted.length then some (address, wanted) else none
    (resp, creq)
  else (none, none)

/-- Processing of one `(digest, content)` pair of a `ContentMessage` response, the
loop body at src/src/gossip.rs:186-203: if the digest is neither active nor removed
and the recomputed digest of the content matches, insert the update (fresh
expiration state) and, when an update handler is installed, invoke the callback;
otherwise leave the store untouched.  `events` accumulates the digests for which
the callback fired. -/
def receive_content_pair (hash : List Nat → String) (mode : UpdateExpirationMode)
    (now : Nat) (handlerPresent : Bool) (acc : Store × List String)
    (pair : String × List Nat) : Store × List String :=
  let st := acc.1
  let events := acc.2
  if !active_has st pair.1 && !removed_has st pair.1 then
    if hash pair.2 == pair.1 then
      ({ st with active := st.active ++ [⟨pair.1, pair.2, .new mode now⟩] },
       events ++ (if handlerPresent then [pair.1] else []))
    else (st, events)
  else (st, events)

/-- Rust `MessageType::Response` branch of
`GossipService::start_message_content_handler` (src/src/gossip.rs:182-203): fold
`receive_content_pair` over the received `(digest, content)` pairs (the map's
iteration order is the list order here; no proved property depends on it).  The
source's outer `content.len() > 0` guard is behaviourally the empty fold. -/
def receive_content_response (hash : List Nat → String) (mode : UpdateExpirationMode)
    (now : Nat) (handlerPresent : Bool) (st : Store)
    (pairs : List (String × List Nat)) : Store × List String :=
  pairs.foldl (receive_content_pair hash mode now handlerPresent) (st, [])

/-- Push block of `GossipService::start_gossip_activity` (src/src/gossip.rs:250-273):
when `push` is set and the active map is non-empty, advertise every active digest,
advance each entry's expiration state (`increase_age`, i.e. the push-count
decrement), then move the entries that now report `has_expired` from `active` to
`removed`.  Returns the new store and the advertised headers. -/
def gossip_push_cycle (push : Bool) (now : Nat) (st : Store) : Store × List String :=
  if push && decide (0 < st.active.length) then
    let aged := st.active.map (fun e => { e with exp := e.exp.increase_push_count })
    let headers := st.active.map (fun e => e.digest)
    let expired := (aged.filter (fun e => e.exp.has_expired now)).map (fun e => e.digest)
    ({ active := aged.filter (fun e => !expired.contains e.digest),
       removed := st.removed ++ expired }, headers)
  else (st, [])

/-- Sort key of `removal_keys.sort_by_key(|(_, created)| *created)`
(src/src/update.rs:137). -/
def created_le (a b : String × Nat) : Prop := a.2 ≤ b.2

instance : DecidableRel created_le := fun a b => inferInstanceAs (Decidable (a.2 ≤ b.2))

instance : IsTotal (String × Nat) created_le := ⟨fun a b => Nat.le_total a.2 b.2⟩

instance : IsTrans (String × Nat) created_le := ⟨fun _ _ _ h1 h2 => Nat.le_trans h1 h2⟩

/-- Collection of `removal_keys` (src/src/update.rs:129-135): the `(digest,
created_at)` pairs of the active entries whose expiration value is `MostRecent`. -/
def removal_keys_of (active : List ActiveEntry) : List (String × Nat) :=
  active.filterMap (fun e =>
    match e.exp with
    | .mostRecent created => some (e.digest, created)
    | _ => none)

/-- Active-side part of `UpdateDecorator::clear_expired` (src/src/update.rs:122-154).
For `MostRecent`, `max_size = size + (size as f64 * margin) as usize` is
`size + marginFloor`; when over it, the first `len - max_size` keys of the
created-ascending stable sort are removed from `active` and appended to `removed`.
The indexing `removal_keys[i]` panics (`none`) if fewer keys than `removal_count`
carry a `MostRecent` value.  For `PushCount`/`DurationMillis`, every entry whose
state `has_expired` moves to `removed`. -/
def clear_expired_active (mode : UpdateExpirationMode) (now : Nat) (st : Store) :
    Option Store :=
  match mode with
  | .noExpiration => some st
  | .mostRecent size marginFloor =>
    let max_size := size + marginFloor
    if st.active.length > max_size then
      let removal_count := st.active.length - max_size
      let keys := List.insertionSort created_le (removal_keys_of st.active)
      if removal_count ≤ keys.length then
        let doomed := (keys.take removal_count).map (fun k => k.1)
        some { active := st.active.filter (fun e => !doomed.contains e.digest),
               removed := st.removed ++ doomed }
      else none
    else some st
  | .pushCount _ =>
    let expired := (st.active.filter (fun e => e.exp.has_expired now)).map (fun e => e.digest)
    some { active := st.active.filter (fun e => !expired.contains e.digest),
           removed := st.removed ++ expired }
  | .durationMillis _ =>
    let expired := (st.active.filter (fun e => e.exp.has_expired now)).map (fun e => e.digest)
    some { active := st.active.filter (fun e => !expired.contains e.digest),
           removed := st.removed ++ expired }

/-- Tombstone trim at the end of `UpdateDecorator::clear_expired`
(src/src/update.rs:156-160): with `margin_size = (max_expired_size as f64 *
max_expired_margin) as usize`, drain the first `margin_size` tombstones when their
count exceeds `max_expired_size + margin_size`.  The constructor fixes
`max_expired_size = 10000` and `max_expired_margin = 0.5`, so `margin_size = 5000`;
both are parameters here so the theorems quantify over them. -/
def trim_removed (max_expired_size margin_size : Nat) (st : Store) : Store :=
  if st.removed.length > max_expired_size + margin_size && decide (0 < margin_size) then
    { st with removed := st.removed.drop margin_size }
  else st

/-- Rust `UpdateDecorator::clear_expired` (src/src/update.rs:121-161): the
policy-dependent active sweep followed by the tombstone trim. -/
def clear_expired (mode : UpdateExpirationMode) (now : Nat)
    (max_expired_size margin_size : Nat) (st : Store) : Option Store :=
  (clear_expired_active mode now st).map (trim_removed max_expired_size margin_size)

/-- Rust `rand::thread_rng().gen_range(0, d)`: a uniform draw in `[0, d)`, here the
supplied draw `r` reduced mod `d`; rand panics on the empty range `0..0`, modelled
as `none`. -/
def gen_range_zero (d r : Nat) : Option Nat :=
  if d = 0 then none else some (r % d)

/-- Sleep-time computation of the outbound gossip cycle (src/src/gossip.rs:242):
`gossip_interval + gen_range(0, gossip_deviation)`, with no guard on a zero
deviation. -/
def gossip_sleep_time (interval deviation r : Nat) : Option Nat :=
  (gen_range_zero deviation r).map (fun j => interval + j)

/-- Sleep-time computation of the sampling cycle (src/src/sampling.rs:180-184): the
deviation is guarded, `0` when `sampling_deviation == 0`, otherwise a
`gen_range(0, deviation)` draw. -/
def sampling_sleep_time (period deviation r : Nat) : Nat :=
  period + (if deviation = 0 then 0 else r % deviation)

/-- Rust `Peer::as_bytes` (src/src/peer.rs:45-55) at the byte level: the UTF-8 bytes
of the address, the separator `0x2C`, then the age's high and low bytes (`age` is
`u16`, so each byte is its value mod 256). -/
def peer_as_bytes (addressBytes : List Nat) (age : Nat) : List Nat :=
  addressBytes ++ [0x2C, age / 256 % 256, age % 256]

/-- Rust `Peer::from_bytes` (src/src/peer.rs:62-84): find the first separator byte,
require exactly two age bytes after it, decode the prefix as the address and
recompose the age.  `String::from_utf8` is modelled as the identity on the byte
sequence; the claims evaluate it only on encodings of actual strings, where decoding
inverts encoding. -/
def peer_from_bytes (bytes : List Nat) : Except String (List Nat × Nat) :=
  match List.findIdx? (fun b => b == 0x2C) bytes with
  | none => .error "peer separator not found"
  | some index =>
    if bytes.length ≠ index + 3 then .error "invalid age"
    else .ok (bytes.take index,
              (bytes.getD (index + 1) 0) * 256 + bytes.getD (index + 2) 0)

/-- Membership reading of the Bool test `addr_mem`. -/
theorem addr_mem_iff (a : String) (l : List Peer) :
    addr_mem a l = true ↔ ∃ p ∈ l, p.address = a := by
  simp [addr_mem]

/-- Membership reading of the Bool test `peer_mem`. -/
theorem peer_mem_iff (p : Peer) (l : List Peer) :
    peer_mem p l = true ↔ ∃ q ∈ l, q.address = p.address := by
  simp [peer_mem, addr_mem]

/-- C9: the claim says each outbound gossip cycle sleeps `gossip_period +
U[0, gossip_deviation)` and that with the default `gossip_deviation = 0` this is
defined and equals `gossip_period`.  The code (src/src/gossip.rs:242) calls
`gen_range(0, gossip_deviation)` with no zero guard, and rand panics on the empty
range, so at the default deviation the cycle fails (`none`); when the deviation is
positive the sleep is `gossip_period` plus a jitter below the deviation.  The
sampling cycle (src/src/sampling.rs:180-184) has the guard the gossip cycle lacks
and does yield exactly its period. -/
theorem c9_gossip_sleep_panics_at_zero_deviation :
    (∀ interval r : Nat, gossip_sleep_time interval 0 r = none) ∧
    (∀ interval d r : Nat,
      gossip_sleep_time interval (d + 1) r = some (interval + r % (d + 1))) ∧
    (∀ period r : Nat, sampling_sleep_time period 0 r = period) := by
  refine ⟨fun interval r => rfl, fun interval d r => ?_, fun period r => rfl⟩
  simp [gossip_sleep_time, gen_range_zero]

/-- C8: the claim says that with `view_size c = 0` (and any `c < 2`) computing the
exchange buffer — `head(c)`, the first `min(c/2 - 1, len)` peers — is defined and
does not fail.  The code (src/src/sampling.rs:304) computes `c / 2 - 1` on `usize`,
which underflows for `c < 2`: a panic under Rust's checked arithmetic
(`none` here).  For every `c ≥ 2` the buffer is defined. -/
theorem c8_build_buffer_underflows_for_small_view_size :
    (∀ (address : String) (h : Nat) (ps : List Peer),
      build_buffer address 0 h ps = none) ∧
    (∀ (address : String) (h : Nat) (ps : List Peer),
      build_buffer address 1 h ps = none) ∧
    (∀ (address : String) (c h : Nat) (ps : List Peer),
      (build_buffer address (c + 2) h ps).isSome = true) := by
  refine ⟨fun address h ps => rfl, fun address h ps => rfl, fun address c h ps => ?_⟩
  have h1 : 1 ≤ (c + 2) / 2 := by omega
  simp [build_buffer, View.head, checked_sub, h1]

/-- C10 counterexample: the claim quantifies over every peer, but for the peer with
address `","` (UTF-8 bytes `[0x2C]`) and age 0, deserialising the serialisation
fails: `from_bytes` splits at the first separator byte, which here is the address
byte itself, and then rejects the length. -/
theorem c10_roundtrip_counterexample :
    peer_from_bytes (peer_as_bytes [0x2C] 0) = .error "invalid age" := by
  rfl

/-- Position of the separator in a serialised peer: when the address bytes contain
no `0x2C`, the first `0x2C` of `address ++ [0x2C, hi, lo]` sits exactly at the end
of the address. -/
theorem findIdx_first_separator (addr : List Nat) (hnc : (0x2C : Nat) ∉ addr)
    (hi lo : Nat) :
    List.findIdx? (fun b => b == 0x2C) (addr ++ [0x2C, hi, lo])
      = some addr.length := by
  induction addr with
  | nil => rfl
  | cons b rest ih =>
    have hb : b ≠ 0x2C := fun hb => hnc (by simp [hb])
    have hrest : (0x2C : Nat) ∉ rest := fun hm => hnc (List.mem_cons_of_mem _ hm)
    simp [List.findIdx?_cons, hb, ih hrest]

/-- C10, amended: for every peer whose address bytes contain no separator byte
`0x2C` (true of every socket address) and whose age fits in `u16`, deserialising
the serialisation succeeds and returns the same address bytes and the same age. -/
theorem c10_peer_roundtrip (addressBytes : List Nat) (age : Nat)
    (hnc : (0x2C : Nat) ∉ addressBytes) (hage : age < 65536) :
    peer_from_bytes (peer_as_bytes addressBytes age) = .ok (addressBytes, age) := by
  unfold peer_from_bytes peer_as_bytes
  rw [findIdx_first_separator addressBytes hnc]
  have hlen : (addressBytes ++ [0x2C, age / 256 % 256, age % 256]).length
      = addressBytes.length + 3 := by simp
  rw [hlen]
  simp only [if_neg (by omega : ¬ (addressBytes.length + 3 ≠ addressBytes.length + 3))]
  have htake : (addressBytes ++ [0x2C, age / 256 % 256, age % 256]).take
      addressBytes.length = addressBytes := by
    simp [List.take_append]
  have hget1 : (addressBytes ++ [0x2C, age / 256 % 256, age % 256]).getD
      (addressBytes.length + 1) 0 = age / 256 % 256 := by
    rw [List.getD_append_right _ _ _ _ (by omega)]
    simp
  have hget2 : (addressBytes ++ [0x2C, age / 256 % 256, age % 256]).getD
      (addressBytes.length + 2) 0 = age % 256 := by
    rw [List.getD_append_right _ _ _ _ (by omega)]
    simp
  rw [htake, hget1, hget2]
  have : age / 256 % 256 * 256 + age % 256 = age := by omega
  rw [this]

/-- C10 witness: the amended round-trip at the concrete peer
`("127.0.0.1:9000", age 770)`. -/
theorem c10_peer_roundtrip_witness :
    peer_from_bytes (peer_as_bytes [49, 50, 55, 46, 48, 46, 48, 46, 49, 58, 57, 48, 48, 48] 770)
      = .ok ([49, 50, 55, 46, 48, 46, 48, 46, 49, 58, 57, 48, 48, 48], 770) :=
  c10_peer_roundtrip _ _ (by decide) (by decide)

/-- C2 counterexample: the handler condition in src/src/gossip.rs:113 is
`pull && active_updates.len() > 0 && message is Request` — it never compares the
sender against the node's own address.  Here a node at `127.0.0.1:9000` with one
active update receives a header `Request` whose sender is its own address (which
parses as a socket address) and still replies with a header `Response`, which the
claim says must not happen. -/
theorem c2_header_reply_counterexample :
    (header_handler (fun _ => true) true "127.0.0.1:9000"
        { active := [⟨"d0", [], UpdateExpirationValue.noExpiration⟩], removed := [] }
        { sender := "127.0.0.1:9000", mtype := .request, headers := [] }).1
      = some ("127.0.0.1:9000", ["d0"]) := by
  rfl

/-- C2, amended: the node replies with a header `Response` carrying all active
digests exactly when pull is enabled, the message is a `Request`, at least one
update is active, and the sender string parses as a socket address; the sender
being the node's own address is not excluded. -/
theorem c2_header_reply_condition (parse_ok : String → Bool) (pull : Bool)
    (address : String) (st : Store) (msg : HeaderMessage) :
    (header_handler parse_ok pull address st msg).1
      = if parse_ok msg.sender = true ∧ pull = true ∧ 0 < st.active.length
           ∧ msg.mtype = .request
        then some (address, st.active.map (fun e => e.digest))
        else none := by
  unfold header_handler
  by_cases hp : parse_ok msg.sender = true
  · simp only [hp, if_true, true_and]
    by_cases hpull : pull = true
    · by_cases hact : 0 < st.active.length
      · cases hmt : msg.mtype with
        | request => simp [hpull, hact, hmt]
        | response => simp [hpull, hact, hmt]
      · simp [hpull, hact]
    · simp [hpull]
  · simp only [Bool.not_eq_true] at hp
    simp [hp]

/-- C4: `submit` fails exactly when the digest of the bytes is already active
(already-active error) or already removed (expired error); on failure the store is
unchanged; on success the update is appended to the active map with a fresh
expiration state; and the submitting node's callback trace is empty on every
path. -/
theorem c4_submit_spec (hash : List Nat → String) (mode : UpdateExpirationMode)
    (now : Nat) (st : Store) (bytes : List Nat) :
    ((submit hash mode now st bytes).2.1.isSome = true ↔
        (active_has st (hash bytes) = true ∨ removed_has st (hash bytes) = true)) ∧
    ((submit hash mode now st bytes).2.1 = some .alreadyActive ↔
        active_has st (hash bytes) = true) ∧
    ((submit hash mode now st bytes).2.1 = some .alreadyExpired ↔
        (active_has st (hash bytes) = false ∧ removed_has st (hash bytes) = true)) ∧
    ((submit hash mode now st bytes).2.1.isSome = true →
        (submit hash mode now st bytes).1 = st) ∧
    ((submit hash mode now st bytes).2.1 = none →
        (submit hash mode now st bytes).1
          = { st with active := st.active ++ [⟨hash bytes, bytes, .new mode now⟩] }) ∧
    (submit hash mode now st bytes).2.2 = [] := by
  unfold submit
  by_cases ha : active_has st (hash bytes) = true
  · simp [ha]
  · simp only [Bool.not_eq_true] at ha
    by_cases hr : removed_has st (hash bytes) = true
    · simp [ha, hr]
    · simp only [Bool.not_eq_true] at hr
      simp [ha, hr]

/-- C4 witness: the theorem applied to a concrete store holding the digest `"dd"`
as a tombstone, with a constant digest function: the submit fails with the
expired error and leaves the store unchanged. -/
theorem c4_submit_spec_witness :
    (submit (fun _ => "dd") .noExpiration 0
        { active := [], removed := ["dd"] } [1]).2.1 = some .alreadyExpired ∧
    (submit (fun _ => "dd") .noExpiration 0
        { active := [], removed := ["dd"] } [1]).1
      = { active := [], removed := ["dd"] } := by
  refine ⟨?_, ?_⟩
  · exact (c4_submit_spec (fun _ => "dd") .noExpiration 0
      { active := [], removed := ["dd"] } [1]).2.2.1.mpr (by decide)
  · exact (c4_submit_spec (fun _ => "dd") .noExpiration 0
      { active := [], removed := ["dd"] } [1]).2.2.2.1 (by decide)

/-- Across a whole content-response batch, the callback trace only ever gains
digests that were neither active nor removed when their pair was processed: a
digest already present stays present, so it is never appended. -/
theorem receive_fold_no_refire (hash : List Nat → String) (mode : UpdateExpirationMode)
    (now : Nat) (hp : Bool) (d : String) :
    ∀ (pairs : List (String × List Nat)) (st : Store) (evs : List String),
      active_has st d = true ∨ removed_has st d = true →
      d ∈ (pairs.foldl (receive_content_pair hash mode now hp) (st, evs)).2 →
      d ∈ evs := by
  intro pairs
  induction pairs with
  | nil => intro st evs _ hmem; simpa using hmem
  | cons p rest ih =>
    intro st evs hdm hmem
    simp only [List.foldl_cons] at hmem
    by_cases hg : (!active_has st p.1 && !removed_has st p.1) = true
    · have hne : p.1 ≠ d := by
        intro he
        rcases hdm with h | h
        · rw [he, h] at hg; simp at hg
        · rw [he, h] at hg; simp at hg
      by_cases hh : (hash p.2 == p.1) = true
      · have hstep : receive_content_pair hash mode now hp (st, evs) p
            = ({ st with active := st.active ++ [⟨p.1, p.2, .new mode now⟩] },
               evs ++ (if hp then [p.1] else [])) := by
          simp [receive_content_pair, hg, hh]
        rw [hstep] at hmem
        have hdm' : active_has { st with
              active := st.active ++ [⟨p.1, p.2, .new mode now⟩] } d = true ∨
            removed_has { st with
              active := st.active ++ [⟨p.1, p.2, .new mode now⟩] } d = true := by
          rcases hdm with h | h
          · left
            simp only [active_has, List.any_append] at *
            simp [h]
          · right
            simpa [removed_has] using h
        have := ih _ _ hdm' hmem
        rcases List.mem_append.mp this with h | h
        · exact h
        · exfalso
          rcases hp with _ | _
          · simp at h
          · simp at h
            exact hne (h.symm ▸ rfl)
      · have hstep : receive_content_pair hash mode now hp (st, evs) p = (st, evs) := by
          simp [receive_content_pair, hg, hh]
        rw [hstep] at hmem
        exact ih _ _ hdm hmem
    · have hstep : receive_content_pair hash mode now hp (st, evs) p = (st, evs) := by
        simp only [receive_content_pair]
        rw [if_neg (by simpa using hg)]
      rw [hstep] at hmem
      exact ih _ _ hdm hmem

/-- C5: with the update handler installed, a `(digest, content)` pair of a content
response is inserted into the active map and delivered to the callback exactly when
the digest is neither active nor removed and the recomputed digest of the content
matches; any duplicate or mismatching pair leaves the store untouched and fires no
callback; and over a whole batch the callback never fires for a digest that is
already active or removed. -/
theorem c5_content_response_delivery (hash : List Nat → String)
    (mode : UpdateExpirationMode) (now : Nat) (st : Store) (d : String)
    (content : List Nat) (evs : List String) (pairs : List (String × List Nat)) :
    (active_has st d = false → removed_has st d = false → hash content = d →
      receive_content_pair hash mode now true (st, evs) (d, content)
        = ({ st with active := st.active ++ [⟨d, content, .new mode now⟩] },
           evs ++ [d])) ∧
    (active_has st d = true ∨ removed_has st d = true ∨ hash content ≠ d →
      receive_content_pair hash mode now true (st, evs) (d, content) = (st, evs)) ∧
    (active_has st d = true ∨ removed_has st d = true →
      d ∉ (receive_content_response hash mode now true st pairs).2) := by
  refine ⟨?_, ?_, ?_⟩
  · intro ha hr hh
    simp [receive_content_pair, ha, hr, hh]
  · intro hcase
    rcases hcase with h | h | h
    · simp [receive_content_pair, h]
    · simp [receive_content_pair, h]
    · by_cases hg : (!active_has st d && !removed_has st d) = true
      · simp [receive_content_pair, hg, h]
      · simp only [receive_content_pair]
        rw [if_neg (by simpa using hg)]
  · intro hdm hmem
    have := receive_fold_no_refire hash mode now true d pairs st [] hdm hmem
    simp at this

/-- C5 witness: a batch against a store where `"d0"` is active and `"dx"` removed;
the new matching digest `"d1"` is inserted and delivered once, and neither `"d0"`
nor `"dx"` fires. -/
theorem c5_content_response_delivery_witness :
    receive_content_pair (fun c => if c = [1] then "d1" else "x") .noExpiration 0 true
        ({ active := [⟨"d0", [], .noExpiration⟩], removed := ["dx"] }, []) ("d1", [1])
      = ({ active := [⟨"d0", [], .noExpiration⟩,
                      ⟨"d1", [1], .noExpiration⟩], removed := ["dx"] }, ["d1"]) ∧
    "d0" ∉ (receive_content_response (fun c => if c = [1] then "d1" else "x")
        .noExpiration 0 true
        { active := [⟨"d0", [], .noExpiration⟩], removed := ["dx"] }
        [("d0", [2]), ("d1", [1])]).2 := by
  constructor
  · exact (c5_content_response_delivery (fun c => if c = [1] then "d1" else "x")
      .noExpiration 0 { active := [⟨"d0", [], .noExpiration⟩], removed := ["dx"] }
      "d1" [1] [] []).1 (by decide) (by decide) (by decide)
  · exact (c5_content_response_delivery (fun c => if c = [1] then "d1" else "x")
      .noExpiration 0 { active := [⟨"d0", [], .noExpiration⟩], removed := ["dx"] }
      "d0" [] [] [("d0", [2]), ("d1", [1])]).2.2 (Or.inl (by decide))

/-- Disjointness invariant of the update store: no active digest is a tombstone. -/
def store_disjoint (st : Store) : Prop :=
  ∀ e ∈ st.active, e.digest ∉ st.removed

/-- Sweep pattern shared by `clear_expired` and the push cycle: filtering a batch of
entries by exclusion from `doomed` while appending `doomed` to the tombstones keeps
active and removed disjoint. -/
theorem sweep_disjoint (b : List ActiveEntry) (removed doomed : List String)
    (hb : ∀ e ∈ b, e.digest ∉ removed) :
    ∀ e ∈ b.filter (fun e => !doomed.contains e.digest),
      e.digest ∉ removed ++ doomed := by
  intro e he
  have hmem := List.mem_filter.mp he
  have h1 : e.digest ∉ removed := hb e hmem.1
  have h2 : e.digest ∉ doomed := by
    have := hmem.2
    simp only [Bool.not_eq_true'] at this
    simpa using this
  intro hcontra
  rcases List.mem_append.mp hcontra with h | h
  · exact h1 h
  · exact h2 h

/-- One content-response pair preserves store disjointness. -/
theorem receive_pair_disjoint (hash : List Nat → String) (mode : UpdateExpirationMode)
    (now : Nat) (hp : Bool) (st : Store) (evs : List String)
    (p : String × List Nat) (hdisj : store_disjoint st) :
    store_disjoint (receive_content_pair hash mode now hp (st, evs) p).1 := by
  by_cases hg : (!active_has st p.1 && !removed_has st p.1) = true
  · by_cases hh : (hash p.2 == p.1) = true
    · have hr : removed_has st p.1 = false := by
        rcases Bool.and_eq_true .. |>.mp hg with ⟨_, h2⟩
        simpa using h2
      have hstep : (receive_content_pair hash mode now hp (st, evs) p).1
          = { st with active := st.active ++ [⟨p.1, p.2, .new mode now⟩] } := by
        simp [receive_content_pair, hg, hh]
      rw [hstep]
      intro e he
      rcases List.mem_append.mp he with h | h
      · exact hdisj e h
      · have : e = ⟨p.1, p.2, .new mode now⟩ := by simpa using h
        subst this
        simpa [removed_has] using hr
    · have hstep : (receive_content_pair hash mode now hp (st, evs) p).1 = st := by
        simp [receive_content_pair, hg, hh]
      rw [hstep]; exact hdisj
  · have hstep : (receive_content_pair hash mode now hp (st, evs) p).1 = st := by
      simp only [receive_content_pair]
      rw [if_neg (by simpa using hg)]
    rw [hstep]; exact hdisj

/-- A whole content-response batch preserves store disjointness. -/
theorem receive_fold_disjoint (hash : List Nat → String) (mode : UpdateExpirationMode)
    (now : Nat) (hp : Bool) :
    ∀ (pairs : List (String × List Nat)) (st : Store) (evs : List String),
      store_disjoint st →
      store_disjoint ((pairs.foldl (receive_content_pair hash mode now hp) (st, evs)).1) := by
  intro pairs
  induction pairs with
  | nil => intro st evs h; simpa using h
  | cons p rest ih =>
    intro st evs h
    simp only [List.foldl_cons]
    have hd := receive_pair_disjoint hash mode now hp st evs p h
    have hsplit : receive_content_pair hash mode now hp (st, evs) p
        = ((receive_content_pair hash mode now hp (st, evs) p).1,
           (receive_content_pair hash mode now hp (st, evs) p).2) := rfl
    rw [hsplit]
    exact ih _ _ hd

/-- The active-side sweep of `clear_expired` preserves store disjointness. -/
theorem clear_expired_active_disjoint (mode : UpdateExpirationMode) (now : Nat)
    (st st' : Store) (hdisj : store_disjoint st)
    (heq : clear_expired_active mode now st = some st') :
    store_disjoint st' := by
  cases mode with
  | noExpiration =>
    simp only [clear_expired_active] at heq
    cases heq
    exact hdisj
  | mostRecent size marginFloor =>
    simp only [clear_expired_active] at heq
    by_cases hover : st.active.length > size + marginFloor
    · rw [if_pos hover] at heq
      by_cases hrc : st.active.length - (size + marginFloor) ≤
          (List.insertionSort created_le (removal_keys_of st.active)).length
      · rw [if_pos hrc] at heq
        cases heq
        exact sweep_disjoint st.active st.removed _ hdisj
      · rw [if_neg hrc] at heq
        cases heq
    · rw [if_neg hover] at heq
      cases heq
      exact hdisj
  | pushCount n =>
    simp only [clear_expired_active] at heq
    cases heq
    exact sweep_disjoint st.active st.removed _ hdisj
  | durationMillis ms =>
    simp only [clear_expired_active] at heq
    cases heq
    exact sweep_disjoint st.active st.removed _ hdisj

/-- The tombstone trim preserves store disjointness: it only shortens `removed`. -/
theorem trim_removed_disjoint (mes ms : Nat) (st : Store) (hdisj : store_disjoint st) :
    store_disjoint (trim_removed mes ms st) := by
  unfold trim_removed
  by_cases hc : (st.removed.length > mes + ms && decide (0 < ms)) = true
  · rw [if_pos hc]
    intro e he hmem
    exact hdisj e he (List.mem_of_mem_drop hmem)
  · rw [if_neg hc]
    exact hdisj

/-- C6: every store operation — `submit`, processing a content-response batch, the
expiration sweep `clear_expired`, and the expiry performed inside the outbound push
cycle — preserves disjointness of `active` and `removed`. -/
theorem c6_store_ops_preserve_disjointness (hash : List Nat → String)
    (mode : UpdateExpirationMode) (now : Nat) (push hp : Bool) (mes ms : Nat)
    (st : Store) (bytes : List Nat) (pairs : List (String × List Nat))
    (hdisj : store_disjoint st) :
    store_disjoint (submit hash mode now st bytes).1 ∧
    store_disjoint (receive_content_response hash mode now hp st pairs).1 ∧
    (∀ st', clear_expired mode now mes ms st = some st' → store_disjoint st') ∧
    store_disjoint (gossip_push_cycle push now st).1 := by
  refine ⟨?_, ?_, ?_, ?_⟩
  · unfold submit
    by_cases ha : active_has st (hash bytes) = true
    · rw [if_pos ha]; exact hdisj
    · rw [if_neg (by simpa using ha)]
      by_cases hr : removed_has st (hash bytes) = true
      · rw [if_pos hr]; exact hdisj
      · rw [if_neg (by simpa using hr)]
        intro e he
        rcases List.mem_append.mp he with h | h
        · exact hdisj e h
        · have : e = ⟨hash bytes, bytes, .new mode now⟩ := by simpa using h
          subst this
          simpa [removed_has] using hr
  · exact receive_fold_disjoint hash mode now hp pairs st [] hdisj
  · intro st' heq
    unfold clear_expired at heq
    cases hact : clear_expired_active mode now st with
    | none => rw [hact] at heq; cases heq
    | some stm =>
      rw [hact] at heq
      simp only [Option.map_some'] at heq
      cases heq
      exact trim_removed_disjoint mes ms stm
        (clear_expired_active_disjoint mode now st stm hdisj hact)
  · unfold gossip_push_cycle
    by_cases hc : (push && decide (0 < st.active.length)) = true
    · rw [if_pos hc]
      refine sweep_disjoint _ st.removed _ ?_
      intro e he
      rcases List.mem_map.mp he with ⟨e0, he0, heq0⟩
      have : e.digest = e0.digest := by rw [← heq0]
      rw [this]
      exact hdisj e0 he0
    · rw [if_neg hc]
      exact hdisj

/-- C6 witness: the theorem applied to a concrete disjoint store (one active
entry with an exhausted push count, one tombstone). -/
theorem c6_store_ops_preserve_disjointness_witness :
    store_disjoint (submit (fun _ => "d2") (.pushCount 3) 0
        { active := [⟨"d0", [], .pushCount 1⟩], removed := ["dx"] } [1]).1 ∧
    store_disjoint (gossip_push_cycle true 0
        { active := [⟨"d0", [], .pushCount 1⟩], removed := ["dx"] }).1 := by
  have h := c6_store_ops_preserve_disjointness (fun _ => "d2") (.pushCount 3) 0
    true true 10000 5000 { active := [⟨"d0", [], .pushCount 1⟩], removed := ["dx"] }
    [1] [] (by intro e he; fin_cases he; decide)
  exact ⟨h.1, h.2.2.2⟩

/-- Invariant of the dedup fold: after processing `seen`, the accumulator holds
exactly one entry per address of `seen`, each carrying the minimum age observed for
its address, attained by some entry of `seen`. -/
def DedupInv (seen acc : List Peer) : Prop :=
  acc.Pairwise (fun p q => p.address ≠ q.address) ∧
  (∀ a, (∃ p ∈ seen, p.address = a) ↔ (∃ p ∈ acc, p.address = a)) ∧
  (∀ p ∈ acc, (∃ q ∈ seen, q.address = p.address ∧ q.age = p.age) ∧
    ∀ q ∈ seen, q.address = p.address → p.age ≤ q.age)

/-- One `dedup_insert` step maintains the dedup invariant. -/
theorem dedup_insert_inv (seen acc : List Peer) (x : Peer) (hinv : DedupInv seen acc) :
    DedupInv (seen ++ [x]) (dedup_insert acc x) := by
  obtain ⟨hpw, hset, hmin⟩ := hinv
  unfold dedup_insert
  by_cases hx : addr_mem x.address acc = true
  · rw [if_pos hx]
    have haddr : ∀ q : Peer,
        (if q.address == x.address && x.age < q.age then x else q).address
          = q.address := by
      intro q
      by_cases hc : (q.address == x.address && x.age < q.age) = true
      · rw [if_pos hc]
        have := (Bool.and_eq_true .. |>.mp hc).1
        exact (beq_iff_eq .. |>.mp this).symm
      · rw [if_neg hc]
    refine ⟨?_, ?_, ?_⟩
    · refine List.Pairwise.map _ ?_ hpw
      intro p q hne
      rw [haddr p, haddr q]
      exact hne
    · intro a
      constructor
      · intro hpa
        rcases hpa with ⟨p, hp, hpa⟩
        rcases List.mem_append.mp hp with h | h
        · rcases (hset a).mp ⟨p, h, hpa⟩ with ⟨q, hq, hqa⟩
          exact ⟨_, List.mem_map_of_mem _ hq, by rw [haddr q]; exact hqa⟩
        · have hpx : p = x := by simpa using h
          subst hpx
          rcases (addr_mem_iff ..).mp hx with ⟨q, hq, hqa⟩
          exact ⟨_, List.mem_map_of_mem _ hq, by rw [haddr q]; rw [hqa, hpa]⟩
      · intro hpa
        rcases hpa with ⟨p, hp, hpa⟩
        rcases List.mem_map.mp hp with ⟨q, hq, hfq⟩
        have : q.address = a := by rw [← hpa, ← hfq, haddr q]
        rcases (hset a).mpr ⟨q, hq, this⟩ with ⟨r, hr, hra⟩
        exact ⟨r, List.mem_append_left _ hr, hra⟩
    · intro p hp
      rcases List.mem_map.mp hp with ⟨q, hq, hfq⟩
      by_cases hc : (q.address == x.address && x.age < q.age) = true
      · have hqx : q.address = x.address := beq_iff_eq .. |>.mp (Bool.and_eq_true .. |>.mp hc).1
        have hlt : x.age < q.age := of_decide_eq_true (Bool.and_eq_true .. |>.mp hc).2
        have hpx : p = x := by rw [← hfq, if_pos hc]
        subst hpx
        refine ⟨⟨p, List.mem_append_right _ (List.mem_singleton_self p), rfl, rfl⟩, ?_⟩
        intro q' hq' hqa'
        rcases List.mem_append.mp hq' with h | h
        · have hq'min := (hmin q hq).2 q' h (by rw [hqa', hqx])
          omega
        · have : q' = p := by simpa using h
          subst this
          exact Nat.le_refl _
      · have hpq : p = q := by rw [← hfq, if_neg hc]
        subst hpq
        refine ⟨?_, ?_⟩
        · rcases (hmin p hq).1 with ⟨r, hr, hra, hrage⟩
          exact ⟨r, List.mem_append_left _ hr, hra, hrage⟩
        · intro q' hq' hqa'
          rcases List.mem_append.mp hq' with h | h
          · exact (hmin p hq).2 q' h hqa'
          · have hqx' : q' = x := by simpa using h
            subst hqx'
            by_cases hax : p.address = q'.address
            · have : ¬ (q'.age < p.age) := by
                intro hlt
                apply hc
                refine Bool.and_eq_true .. |>.mpr ⟨beq_iff_eq .. |>.mpr hax, ?_⟩
                exact decide_eq_true hlt
              omega
            · exact absurd hqa'.symm hax
  · rw [if_neg hx]
    have hnone : ∀ q ∈ acc, q.address ≠ x.address := by
      intro q hq he
      exact hx ((addr_mem_iff ..).mpr ⟨q, hq, he⟩)
    refine ⟨?_, ?_, ?_⟩
    · rw [List.pairwise_append]
      refine ⟨hpw, List.pairwise_singleton _ _, ?_⟩
      intro p hp q hq
      have : q = x := by simpa using hq
      subst this
      exact hnone p hp
    · intro a
      constructor
      · intro hpa
        rcases hpa with ⟨p, hp, hpa⟩
        rcases List.mem_append.mp hp with h | h
        · rcases (hset a).mp ⟨p, h, hpa⟩ with ⟨q, hq, hqa⟩
          exact ⟨q, List.mem_append_left _ hq, hqa⟩
        · have : p = x := by simpa using h
          subst this
          exact ⟨p, List.mem_append_right _ (List.mem_singleton_self p), hpa⟩
      · intro hpa
        rcases hpa with ⟨p, hp, hpa⟩
        rcases List.mem_append.mp hp with h | h
        · rcases (hset a).mpr ⟨p, h, hpa⟩ with ⟨q, hq, hqa⟩
          exact ⟨q, List.mem_append_left _ hq, hqa⟩
        · have : p = x := by simpa using h
          subst this
          exact ⟨p, List.mem_append_right _ (List.mem_singleton_self p), hpa⟩
    · intro p hp
      rcases List.mem_append.mp hp with h | h
      · refine ⟨?_, ?_⟩
        · rcases (hmin p h).1 with ⟨r, hr, hra, hrage⟩
          exact ⟨r, List.mem_append_left _ hr, hra, hrage⟩
        · intro q' hq' hqa'
          rcases List.mem_append.mp hq' with h' | h'
          · exact (hmin p h).2 q' h' hqa'
          · have : q' = x := by simpa using h'
            subst this
            exact absurd hqa' (fun he => hnone p h he.symm)
      · have : p = x := by simpa using h
        subst this
        refine ⟨⟨p, List.mem_append_right _ (List.mem_singleton_self p), rfl, rfl⟩, ?_⟩
        intro q' hq' hqa'
        rcases List.mem_append.mp hq' with h' | h'
        · exfalso
          rcases (hset p.address).mp ⟨q', h', hqa'⟩ with ⟨r, hr, hra⟩
          exact hnone r hr hra
        · have : q' = p := by simpa using h'
          subst this
          exact Nat.le_refl _

/-- The dedup fold maintains the invariant over any remaining input. -/
theorem dedup_fold_inv :
    ∀ (rest seen acc : List Peer), DedupInv seen acc →
      DedupInv (seen ++ rest) (rest.foldl dedup_insert acc) := by
  intro rest
  induction rest with
  | nil => intro seen acc h; simpa using h
  | cons x xs ih =>
    intro seen acc h
    simp only [List.foldl_cons]
    have h2 := ih (seen ++ [x]) (dedup_insert acc x) (dedup_insert_inv seen acc x h)
    simpa [List.append_assoc] using h2

/-- The full invariant for `remove_duplicates`. -/
theorem remove_duplicates_inv (l : List Peer) : DedupInv l (remove_duplicates l) := by
  have h0 : DedupInv [] [] := by
    refine ⟨List.Pairwise.nil, ?_, ?_⟩
    · intro a; simp
    · intro p hp; simp at hp
  simpa using dedup_fold_inv l [] [] h0

/-- A list of peers with pairwise distinct addresses holds exactly one entry with a
given address as soon as it holds one at all. -/
theorem countP_addr_eq_one (l : List Peer) (a : String)
    (hpw : l.Pairwise (fun p q => p.address ≠ q.address))
    (hmem : ∃ p ∈ l, p.address = a) :
    l.countP (fun p => p.address == a) = 1 := by
  induction l with
  | nil => simp at hmem
  | cons x xs ih =>
    rw [List.pairwise_cons] at hpw
    by_cases hxa : x.address = a
    · have hz : xs.countP (fun p => p.address == a) = 0 := by
        rw [List.countP_eq_zero]
        intro p hp
        have := hpw.1 p hp
        rw [hxa] at this
        simpa using Ne.symm this
      rw [List.countP_cons_of_pos _ _ (by simpa using hxa), hz]
    · have hxs : ∃ p ∈ xs, p.address = a := by
        rcases hmem with ⟨p, hp, hpa⟩
        rcases List.mem_cons.mp hp with h | h
        · exact absurd (h ▸ hpa) hxa
        · exact ⟨p, h, hpa⟩
      rw [List.countP_cons_of_neg _ _ (by simpa using hxa)]
      exact ih hpw.2 hxs

/-- C7: `remove_duplicates` keeps exactly one entry per distinct address of the
input (and none for other addresses), and each retained entry's age is the smallest
age among the input entries sharing its address, attained by one of them. -/
theorem c7_remove_duplicates_spec (l : List Peer) :
    (∀ a, (remove_duplicates l).countP (fun p => p.address == a)
        = if addr_mem a l then 1 else 0) ∧
    (∀ p ∈ remove_duplicates l,
      (∃ q ∈ l, q.address = p.address ∧ q.age = p.age) ∧
      ∀ q ∈ l, q.address = p.address → p.age ≤ q.age) := by
  obtain ⟨hpw, hset, hmin⟩ := remove_duplicates_inv l
  refine ⟨?_, hmin⟩
  intro a
  by_cases hm : addr_mem a l = true
  · rw [if_pos hm]
    exact countP_addr_eq_one _ a hpw ((hset a).mp ((addr_mem_iff ..).mp hm))
  · rw [if_neg hm]
    rw [List.countP_eq_zero]
    intro p hp hpa
    exact hm ((addr_mem_iff ..).mpr ((hset a).mpr ⟨p, hp, by simpa using hpa⟩))

/-- Every entry of `remove_duplicates l` shares its address with an entry of `l`. -/
theorem remove_duplicates_addr_sub (l : List Peer) (p : Peer)
    (hp : p ∈ remove_duplicates l) : ∃ q ∈ l, q.address = p.address := by
  obtain ⟨_, hset, _⟩ := remove_duplicates_inv l
  exact (hset p.address).mpr ⟨p, hp, rfl⟩

/-- `remove_old_items` only removes entries. -/
theorem mem_remove_old_items (c h : Nat) (l : List Peer) (p : Peer)
    (hp : p ∈ remove_old_items c h l) : p ∈ l := by
  unfold remove_old_items at hp
  by_cases hrc : (0 : Nat) <
      Nat.min h (if l.length > c then l.length - c else 0)
  · rw [if_pos hrc] at hp
    exact (List.mem_filter.mp hp).1
  · rw [if_neg hrc] at hp
    exact hp

/-- `remove_head` only removes entries. -/
theorem mem_remove_head (c s : Nat) (l : List Peer) (p : Peer)
    (hp : p ∈ remove_head c s l) : p ∈ l :=
  List.drop_subset _ _ hp

/-- The random-removal loop only removes entries. -/
theorem mem_remove_at_random_aux (rs : Nat → Nat) :
    ∀ (k : Nat) (l : List Peer) (p : Peer),
      p ∈ remove_at_random_aux rs k l → p ∈ l := by
  intro k
  induction k with
  | zero => intro l p hp; exact hp
  | succ k ih =>
    intro l p hp
    exact (List.eraseIdx_sublist l (rs k % l.length)).subset (ih _ p hp)

/-- `remove_at_random` only removes entries. -/
theorem mem_remove_at_random (rs : Nat → Nat) (c : Nat) (l : List Peer) (p : Peer)
    (hp : p ∈ remove_at_random rs c l) : p ∈ l := by
  unfold remove_at_random at hp
  by_cases hc : l.length > c
  · rw [if_pos hc] at hp
    exact mem_remove_at_random_aux rs _ l p hp
  · rw [if_neg hc] at hp
    exact hp

/-- Erasing `k ≤ len` random indices removes exactly `k` elements. -/
theorem remove_at_random_aux_length (rs : Nat → Nat) :
    ∀ (k : Nat) (l : List Peer), k ≤ l.length →
      (remove_at_random_aux rs k l).length = l.length - k := by
  intro k
  induction k with
  | zero => intro l _; simp [remove_at_random_aux]
  | succ k ih =>
    intro l hk
    have hpos : 0 < l.length := by omega
    have hidx : rs k % l.length < l.length := Nat.mod_lt _ hpos
    have herase : (l.eraseIdx (rs k % l.length)).length = l.length - 1 := by
      rw [List.length_eraseIdx]
      simp [hidx]
    simp only [remove_at_random_aux]
    rw [ih _ (by omega), herase]
    omega

/-- `remove_at_random` enforces the view-size bound. -/
theorem remove_at_random_length_le (rs : Nat → Nat) (c : Nat) (l : List Peer) :
    (remove_at_random rs c l).length ≤ c := by
  unfold remove_at_random
  by_cases hc : l.length > c
  · rw [if_pos hc, remove_at_random_aux_length rs _ l (by omega)]
    omega
  · rw [if_neg hc]
    omega

/-- The peers list built by `select` before the queue refresh, as a standalone
pipeline (definitionally the `peers` field of the result). -/
def select_pipeline (rs : Nat → Nat) (c h s : Nat) (buffer : List Peer) (v : View) :
    List Peer :=
  remove_at_random rs c (remove_head c s (remove_old_items c h
    (remove_duplicates (v.peers ++ buffer.filter (fun p => p.address != v.host_address)))))

/-- The result of `select`, componentwise. -/
theorem select_components (rs : Nat → Nat) (c h s : Nat) (buffer : List Peer)
    (v : View) :
    (View.select rs c h s buffer v).peers = select_pipeline rs c h s buffer v ∧
    (View.select rs c h s buffer v).queue
      = v.queue.filter (fun p => peer_mem p (select_pipeline rs c h s buffer v))
        ++ (select_pipeline rs c h s buffer v).filter (fun p => !peer_mem p v.queue) ∧
    (View.select rs c h s buffer v).host_address = v.host_address :=
  ⟨rfl, rfl, rfl⟩

/-- C1: merging any received buffer into a view whose peers list avoids the host
address yields, after `select(c, h, s, buffer)`, a peers list of length at most `c`
in which the host address does not appear, and an application queue in which the
host address does not appear either. -/
theorem c1_select_view_bounds (rs : Nat → Nat) (c h s : Nat) (buffer : List Peer)
    (v : View) (hhost : ∀ p ∈ v.peers, p.address ≠ v.host_address) :
    (View.select rs c h s buffer v).peers.length ≤ c ∧
    (∀ p ∈ (View.select rs c h s buffer v).peers, p.address ≠ v.host_address) ∧
    (∀ p ∈ (View.select rs c h s buffer v).queue, p.address ≠ v.host_address) := by
  obtain ⟨hpeers, hqueue, _⟩ := select_components rs c h s buffer v
  have h1 : ∀ p ∈ v.peers ++ buffer.filter (fun p => p.address != v.host_address),
      p.address ≠ v.host_address := by
    intro p hp
    rcases List.mem_append.mp hp with hmem | hmem
    · exact hhost p hmem
    · have := (List.mem_filter.mp hmem).2
      simpa using this
  have h5 : ∀ p ∈ select_pipeline rs c h s buffer v, p.address ≠ v.host_address := by
    intro p hp
    have hp4m := mem_remove_at_random rs c _ p hp
    have hp3m := mem_remove_head c s _ p hp4m
    have hp2m := mem_remove_old_items c h _ p hp3m
    rcases remove_duplicates_addr_sub _ p hp2m with ⟨q, hq, hqa⟩
    rw [← hqa]
    exact h1 q hq
  refine ⟨?_, ?_, ?_⟩
  · rw [hpeers]
    exact remove_at_random_length_le rs c _
  · rw [hpeers]
    exact h5
  · rw [hqueue]
    intro p hp
    rcases List.mem_append.mp hp with hmem | hmem
    · have hpk := List.mem_filter.mp hmem
      rcases (peer_mem_iff ..).mp hpk.2 with ⟨q, hq, hqa⟩
      rw [← hqa]
      exact h5 q hq
    · exact h5 p (List.mem_filter.mp hmem).1

/-- C1 witness: a concrete merge — view at host `"h"` with two peers, a buffer that
even contains the host address — lands within the bound `c = 2` and keeps `"h"` out
of peers and queue. -/
theorem c1_select_view_bounds_witness :
    (View.select (fun _ => 0) 2 1 1 [⟨"x", 0⟩, ⟨"y", 0⟩, ⟨"h", 0⟩]
        { host_address := "h", peers := [⟨"p", 4⟩, ⟨"q", 2⟩],
          queue := [⟨"h", 9⟩, ⟨"p", 1⟩] }).peers.length ≤ 2 ∧
    (∀ p ∈ (View.select (fun _ => 0) 2 1 1 [⟨"x", 0⟩, ⟨"y", 0⟩, ⟨"h", 0⟩]
        { host_address := "h", peers := [⟨"p", 4⟩, ⟨"q", 2⟩],
          queue := [⟨"h", 9⟩, ⟨"p", 1⟩] }).queue, p.address ≠ "h") := by
  have h := c1_select_view_bounds (fun _ => 0) 2 1 1 [⟨"x", 0⟩, ⟨"y", 0⟩, ⟨"h", 0⟩]
    { host_address := "h", peers := [⟨"p", 4⟩, ⟨"q", 2⟩],
      queue := [⟨"h", 9⟩, ⟨"p", 1⟩] }
    (by decide)
  exact ⟨h.1, h.2.2⟩

/-- C3 counterexample: with policy `MostRecent(size = 2, margin = 0.5)` (so
`floor(size × margin) = 1`, `max_size = 3`) and four active entries, the sweep
fires (`4 > 3`) but removes only `len − max_size = 1` entry — the oldest, `"d4"` —
leaving 3 active, not the `len − size = 2` removals the claim states. -/
theorem c3_most_recent_count_counterexample :
    (clear_expired (.mostRecent 2 1) 0 10000 5000
        { active := [⟨"d1", [], .mostRecent 5⟩, ⟨"d2", [], .mostRecent 3⟩,
                     ⟨"d3", [], .mostRecent 8⟩, ⟨"d4", [], .mostRecent 1⟩],
          removed := [] }).map (fun st => (st.active.length, st.removed))
      = some (3, ["d4"]) ∧ (3 : Nat) ≠ 4 - 2 := by
  constructor
  · rfl
  · decide

/-- Creation instant stored in a `MostRecent` expiration value. -/
def created_of : UpdateExpirationValue → Nat
  | .mostRecent created => created
  | _ => 0

/-- When every active entry carries a `MostRecent` value, `removal_keys` lists
every entry's `(digest, created_at)` pair in order. -/
theorem removal_keys_all (active : List ActiveEntry)
    (hall : ∀ e ∈ active, ∃ cr, e.exp = .mostRecent cr) :
    removal_keys_of active = active.map (fun e => (e.digest, created_of e.exp)) := by
  induction active with
  | nil => rfl
  | cons e rest ih =>
    obtain ⟨cr, hcr⟩ := hall e (List.mem_cons_self e rest)
    have hrest : ∀ x ∈ rest, ∃ c, x.exp = .mostRecent c :=
      fun x hx => hall x (List.mem_cons_of_mem e hx)
    simp only [removal_keys_of, List.filterMap_cons, List.map_cons, hcr, created_of]
    exact congrArg _ (by simpa [removal_keys_of] using ih hrest)

/-- Splitting a list by a Bool predicate splits its length. -/
theorem length_filter_bool_split (l : List ActiveEntry) (p : ActiveEntry → Bool) :
    (l.filter p).length + (l.filter (fun e => !p e)).length = l.length := by
  induction l with
  | nil => rfl
  | cons e rest ih =>
    by_cases hp : p e = true
    · simp [List.filter_cons, hp, ← ih]
      omega
    · simp [List.filter_cons, hp, Bool.not_eq_true _ ▸ hp, ← ih]
      omega

/-- The digests removed by a firing `MostRecent` sweep: the first
`len - (size + marginFloor)` keys of the created-ascending sort (a subterm of
`clear_expired_active`). -/
def doomed_of (size marginFloor : Nat) (st : Store) : List String :=
  ((List.insertionSort created_le (removal_keys_of st.active)).take
    (st.active.length - (size + marginFloor))).map (fun k => k.1)

/-- Shape of the `MostRecent` sweep when it fires. -/
theorem clear_expired_active_most_recent_eq (size marginFloor now : Nat) (st : Store)
    (hover : size + marginFloor < st.active.length)
    (hrc : st.active.length - (size + marginFloor)
        ≤ (List.insertionSort created_le (removal_keys_of st.active)).length) :
    clear_expired_active (.mostRecent size marginFloor) now st
      = some { active := st.active.filter
                (fun e => !(doomed_of size marginFloor st).contains e.digest),
               removed := st.removed ++ doomed_of size marginFloor st } := by
  simp only [clear_expired_active]
  rw [if_pos hover, if_pos hrc]
  rfl

/-- C3, amended: under `MostRecent(size, margin)` (with `marginFloor =
floor(size × margin)` and every active entry carrying a creation instant), the
sweep removes active entries only when `len(active) > size + marginFloor`; when it
fires it removes exactly `len − (size + marginFloor)` entries — not `len − size` —
chosen by oldest `created_at` ascending, appending each removed digest to
`removed` (stated here with the tombstone cap not yet reached, so the trailing
trim is the identity). -/
theorem c3_most_recent_sweep_amended (size marginFloor now mes ms : Nat) (st : Store)
    (hkeys : st.active.Pairwise (fun a b => a.digest ≠ b.digest))
    (hall : ∀ e ∈ st.active, ∃ cr, e.exp = .mostRecent cr) :
    (st.active.length ≤ size + marginFloor →
      clear_expired (.mostRecent size marginFloor) now mes ms st
        = some (trim_removed mes ms st)) ∧
    (size + marginFloor < st.active.length →
     st.removed.length + (st.active.length - (size + marginFloor)) ≤ mes + ms →
     ∃ st', clear_expired (.mostRecent size marginFloor) now mes ms st = some st' ∧
       (doomed_of size marginFloor st).length
           = st.active.length - (size + marginFloor) ∧
       (doomed_of size marginFloor st).Nodup ∧
       (∀ d ∈ doomed_of size marginFloor st, ∃ e ∈ st.active, e.digest = d) ∧
       st'.removed = st.removed ++ doomed_of size marginFloor st ∧
       st'.active = st.active.filter
           (fun e => !(doomed_of size marginFloor st).contains e.digest) ∧
       st'.active.length = size + marginFloor ∧
       (∀ e ∈ st.active, e.digest ∈ doomed_of size marginFloor st →
        ∀ e2 ∈ st.active, e2.digest ∉ doomed_of size marginFloor st →
          created_of e.exp ≤ created_of e2.exp)) := by
  constructor
  · intro hle
    simp only [clear_expired, clear_expired_active]
    rw [if_neg (by omega)]
    rfl
  · intro hover htrim
    have hk0 : removal_keys_of st.active
        = st.active.map (fun e => (e.digest, created_of e.exp)) :=
      removal_keys_all st.active hall
    have hlenk : (List.insertionSort created_le (removal_keys_of st.active)).length
        = st.active.length := by
      rw [(List.perm_insertionSort created_le _).length_eq, hk0, List.length_map]
    have hrc : st.active.length - (size + marginFloor)
        ≤ (List.insertionSort created_le (removal_keys_of st.active)).length := by
      omega
    have hdlen : (doomed_of size marginFloor st).length
        = st.active.length - (size + marginFloor) := by
      unfold doomed_of
      rw [List.length_map, List.length_take]
      omega
    have hdmem : ∀ d ∈ doomed_of size marginFloor st,
        ∃ e ∈ st.active, e.digest = d := by
      intro d hd
      unfold doomed_of at hd
      rcases List.mem_map.mp hd with ⟨pr, hpr, hfst⟩
      have hprk0 : pr ∈ removal_keys_of st.active :=
        (List.perm_insertionSort created_le _).mem_iff.mp (List.take_subset _ _ hpr)
      rw [hk0] at hprk0
      rcases List.mem_map.mp hprk0 with ⟨e, he, hpe⟩
      refine ⟨e, he, ?_⟩
      rw [← hfst, ← hpe]
    have hnd : (doomed_of size marginFloor st).Nodup := by
      have h1 : (st.active.map (fun e => e.digest)).Nodup :=
        List.pairwise_map.mpr hkeys
      have h2 : ((removal_keys_of st.active).map (fun k : String × Nat => k.1))
          = st.active.map (fun e => e.digest) := by
        rw [hk0, List.map_map]
        rfl
      have h3 : ((List.insertionSort created_le (removal_keys_of st.active)).map
          (fun k : String × Nat => k.1)).Nodup := by
        refine (List.Perm.nodup_iff ?_).mpr (h2 ▸ h1)
        exact (List.perm_insertionSort created_le _).map _
      have h4 : doomed_of size marginFloor st
          = ((List.insertionSort created_le (removal_keys_of st.active)).map
              (fun k : String × Nat => k.1)).take
              (st.active.length - (size + marginFloor)) := by
        unfold doomed_of
        rw [List.map_take]
      rw [h4]
      exact List.Nodup.sublist (List.take_sublist _ _) h3
    have hbranch := clear_expired_active_most_recent_eq size marginFloor now st hover hrc
    have hposlen : (st.active.filter
        (fun e => (doomed_of size marginFloor st).contains e.digest)).length
        = st.active.length - (size + marginFloor) := by
      have hsubpw : (st.active.filter
          (fun e => (doomed_of size marginFloor st).contains e.digest)).Pairwise
          (fun a b => a.digest ≠ b.digest) :=
        List.Pairwise.sublist (List.filter_sublist _) hkeys
      have hndpos : ((st.active.filter
          (fun e => (doomed_of size marginFloor st).contains e.digest)).map
          (fun e => e.digest)).Nodup := List.pairwise_map.mpr hsubpw
      have hiff : ∀ a, (a ∈ (st.active.filter
          (fun e => (doomed_of size marginFloor st).contains e.digest)).map
          (fun e => e.digest) ↔ a ∈ doomed_of size marginFloor st) := by
        intro a
        constructor
        · intro ha
          rcases List.mem_map.mp ha with ⟨e, he, hea⟩
          have hc := (List.mem_filter.mp he).2
          rw [← hea]
          simpa using hc
        · intro ha
          rcases hdmem a ha with ⟨e, he, hea⟩
          refine List.mem_map.mpr ⟨e, List.mem_filter.mpr ⟨he, ?_⟩, hea⟩
          rw [hea]
          simpa using ha
      have hperm2 : ((st.active.filter
          (fun e => (doomed_of size marginFloor st).contains e.digest)).map
          (fun e => e.digest)).Perm (doomed_of size marginFloor st) :=
        (List.perm_ext_iff_of_nodup hndpos hnd).mpr hiff
      have hpl := hperm2.length_eq
      rw [List.length_map] at hpl
      exact hpl.trans hdlen
    have hsplit := length_filter_bool_split st.active
      (fun e => (doomed_of size marginFloor st).contains e.digest)
    refine Exists.intro (Store.mk
        (st.active.filter (fun e =>
          !(doomed_of size marginFloor st).contains e.digest))
        (st.removed ++ doomed_of size marginFloor st))
      ⟨?_, hdlen, hnd, hdmem, rfl, rfl, ?_, ?_⟩
    · unfold clear_expired
      rw [hbranch]
      simp only [Option.map_some']
      have hlenr : (st.removed ++ doomed_of size marginFloor st).length ≤ mes + ms := by
        rw [List.length_append, hdlen]
        omega
      unfold trim_removed
      rw [if_neg (by
        simp only [Bool.and_eq_true, decide_eq_true_eq, gt_iff_lt]
        rintro ⟨h1, h2⟩
        simp only [List.length_append] at h1
        omega)]
    · show (st.active.filter (fun e =>
          !(doomed_of size marginFloor st).contains e.digest)).length
        = size + marginFloor
      simp only [hposlen] at hsplit
      omega
    · intro e he hd e2 he2 hd2
      have hsorted : List.Sorted created_le
          (List.insertionSort created_le (removal_keys_of st.active)) :=
        List.sorted_insertionSort created_le _
      have hp2k : (e2.digest, created_of e2.exp)
          ∈ List.insertionSort created_le (removal_keys_of st.active) := by
        refine (List.perm_insertionSort created_le _).mem_iff.mpr ?_
        rw [hk0]
        exact List.mem_map_of_mem _ he2
      have hp2drop : (e2.digest, created_of e2.exp)
          ∈ (List.insertionSort created_le (removal_keys_of st.active)).drop
              (st.active.length - (size + marginFloor)) := by
        have hsp := List.take_append_drop (st.active.length - (size + marginFloor))
          (List.insertionSort created_le (removal_keys_of st.active))
        rw [← hsp] at hp2k
        rcases List.mem_append.mp hp2k with hmem | hmem
        · exact absurd (by unfold doomed_of; exact List.mem_map_of_mem _ hmem) hd2
        · exact hmem
      have hptake : (e.digest, created_of e.exp)
          ∈ (List.insertionSort created_le (removal_keys_of st.active)).take
              (st.active.length - (size + marginFloor)) := by
        unfold doomed_of at hd
        rcases List.mem_map.mp hd with ⟨pr, hpr, hfst⟩
        have hprk0 : pr ∈ removal_keys_of st.active :=
          (List.perm_insertionSort created_le _).mem_iff.mp (List.take_subset _ _ hpr)
        rw [hk0] at hprk0
        rcases List.mem_map.mp hprk0 with ⟨e', he', hpe⟩
        have hed : e'.digest = e.digest := (congrArg Prod.fst hpe).trans hfst
        have hsame : e' = e := by
          by_contra hne
          exact List.Pairwise.forall (fun a b hab => Ne.symm hab) hkeys he' he hne hed
        have hpr_eq : pr = (e.digest, created_of e.exp) := by
          rw [← hpe, hsame]
        exact hpr_eq ▸ hpr
      exact hsorted.rel_of_mem_take_of_mem_drop hptake hp2drop

/-- C3 witness: the amended sweep applied to the concrete four-entry store with
`size = 2`, `marginFloor = 1`: it fires and leaves exactly `2 + 1` active
entries. -/
theorem c3_most_recent_sweep_amended_witness :
    ∃ st', clear_expired (.mostRecent 2 1) 0 10000 5000
        { active := [⟨"d1", [], .mostRecent 5⟩, ⟨"d2", [], .mostRecent 3⟩,
                     ⟨"d3", [], .mostRecent 8⟩, ⟨"d4", [], .mostRecent 1⟩],
          removed := [] } = some st' ∧ st'.active.length = 2 + 1 := by
  obtain ⟨st', h1, _, _, _, _, _, h7, _⟩ :=
    (c3_most_recent_sweep_amended 2 1 0 10000 5000
      { active := [⟨"d1", [], .mostRecent 5⟩, ⟨"d2", [], .mostRecent 3⟩,
                   ⟨"d3", [], .mostRecent 8⟩, ⟨"d4", [], .mostRecent 1⟩],
        removed := [] }
      (by decide)
      (by
        intro e he
        fin_cases he
        exacts [⟨5, rfl⟩, ⟨3, rfl⟩, ⟨8, rfl⟩, ⟨1, rfl⟩])).2
      (by decide) (by decide)
  exact ⟨st', h1, h7⟩
